import Mathlib

/-
Verification of the `errs` library (package errs, file errs.go).

The library sequences fallible zero-argument functions.  A `Group` holds an
ordered list of registered entries (`funcs`, each entry a function plus a
boolean `d` flag marking it as deferred) and a separate list of `final`
callbacks.  `Exec` walks `funcs` in order: deferred entries are prepended to a
local accumulator, main entries run immediately and the walk breaks on the
first non-nil error; afterwards the accumulated deferred entries run (results
discarded), and the `final` callbacks run last via Go `defer`.

Shallow embedding: a Go `func() error` running on the caller's single thread
is a state transformer `σ → σ × Option E` (the `Option E` is the returned
error, `none` modelling nil); a Go `func()` is `σ → σ`.  Reflection values,
the result-partition loop of `AddF`, and the `asyncFiller` slot are embedded
further below over a concrete value type.
-/

namespace errs

/-- The `fn` struct of errs.go: a fallible function plus the `d` (defer)
flag. -/
structure Fn (σ E : Type) where
  f : σ → σ × Option E
  d : Bool

/-- The `Group` struct: registered entries and final callbacks.  The zero
value (both lists empty) is the usable empty group. -/
structure Group (σ E : Type) where
  funcs : List (Fn σ E) := []
  final : List (σ → σ) := []

variable {σ E : Type}

/-- `Group.Add`: append a main (non-deferred) entry. -/
def Group.Add (g : Group σ E) (f : σ → σ × Option E) : Group σ E :=
  { g with funcs := g.funcs ++ [⟨f, false⟩] }

/-- `Group.Defer`: append a deferred entry; the Go code wraps the `func()`
as `func() error { f(); return nil }` with `d: true`. -/
def Group.Defer (g : Group σ E) (f : σ → σ) : Group σ E :=
  { g with funcs := g.funcs ++ [⟨fun s => (f s, none), true⟩] }

/-- `Group.Final`: append a final callback to the separate `final` list. -/
def Group.Final (g : Group σ E) (f : σ → σ) : Group σ E :=
  { g with final := g.final ++ [f] }

/-- The main loop of `Group.Exec`: walk the entries in order, prepending
deferred entries to the accumulator `acc`, running main entries and breaking
on the first non-nil error.  Returns the state, the recorded error and the
accumulated deferred functions. -/
def execWalk : List (Fn σ E) → σ → List (σ → σ × Option E) →
    σ × Option E × List (σ → σ × Option E)
  | [], s, acc => (s, none, acc)
  | g :: rest, s, acc =>
    if g.d then execWalk rest s (g.f :: acc)
    else
      match g.f s with
      | (s1, some e) => (s1, some e, acc)
      | (s1, none) => execWalk rest s1 acc

/-- The deferred-entry loop of `Group.Exec`: run each accumulated function in
order, discarding its returned error. -/
def runDefers : List (σ → σ × Option E) → σ → σ
  | [], s => s
  | f :: rest, s => runDefers rest (f s).1

/-- The `defer`-red final loop of `Group.Exec`: run the final callbacks in
registration order. -/
def runFinals : List (σ → σ) → σ → σ
  | [], s => s
  | f :: rest, s => runFinals rest (f s)

/-- `Group.Exec`: the walk, then the accumulated deferred entries, then the
final callbacks; the first main-step error (if any) is returned. -/
def Group.Exec (g : Group σ E) (s : σ) : σ × Option E :=
  match execWalk g.funcs s [] with
  | (s1, e, acc) => (runFinals g.final (runDefers acc s1), e)

/-
Instrumentation: to observe which registered functions execute and in which
order, we build groups over the state `List Nat` (an execution log) from step
descriptions.  Each description registers a function that appends its label
to the log.  `deferf` describes a `d`-flagged entry whose function returns an
error: the public `Defer` API only ever builds entries returning `none`, but
`Exec` consumes any `d`-flagged entry, discarding its result, so this form
lets us state that discarding.
-/

/-- A registration, as an observable description: a main step with a label
and an error outcome, a deferred step, a `d`-flagged entry with an explicit
outcome, or a final callback. -/
inductive StepDesc (E : Type) where
  | main (l : Nat) (out : Option E)
  | defered (l : Nat)
  | deferf (l : Nat) (out : Option E)
  | final (l : Nat)

/-- Perform one registration on a group over the log state. -/
def registerStep (g : Group (List Nat) E) : StepDesc E → Group (List Nat) E
  | .main l out => g.Add (fun s => (s ++ [l], out))
  | .defered l => g.Defer (fun s => s ++ [l])
  | .deferf l out => { g with funcs := g.funcs ++ [⟨fun s => (s ++ [l], out), true⟩] }
  | .final l => g.Final (fun s => s ++ [l])

/-- Build a group by performing the registrations in order, starting from the
zero-value group. -/
def buildGroup (ds : List (StepDesc E)) : Group (List Nat) E :=
  ds.foldl registerStep {}

/-- The `funcs` list a registration sequence produces. -/
def mkFuncs : List (StepDesc E) → List (Fn (List Nat) E)
  | [] => []
  | .main l out :: r => ⟨fun s => (s ++ [l], out), false⟩ :: mkFuncs r
  | .defered l :: r => ⟨fun s => (s ++ [l], none), true⟩ :: mkFuncs r
  | .deferf l out :: r => ⟨fun s => (s ++ [l], out), true⟩ :: mkFuncs r
  | .final _ :: r => mkFuncs r

/-- The `final` list a registration sequence produces. -/
def mkFinals : List (StepDesc E) → List (List Nat → List Nat)
  | [] => []
  | .final l :: r => (fun s => s ++ [l]) :: mkFinals r
  | _ :: r => mkFinals r

/-- Spec side: the prefix of the registrations the linear walk reaches, up to
and including the first failing main step. -/
def specReached : List (StepDesc E) → List (StepDesc E)
  | [] => []
  | .main l (some e) :: _ => [.main l (some e)]
  | d :: r => d :: specReached r

/-- Labels of the main steps of a description list, in order. -/
def mainLabels (ds : List (StepDesc E)) : List Nat :=
  ds.filterMap fun d =>
    match d with
    | .main l _ => some l
    | _ => none

/-- Labels of the deferred entries of a description list, in order. -/
def deferLabels (ds : List (StepDesc E)) : List Nat :=
  ds.filterMap fun d =>
    match d with
    | .defered l => some l
    | .deferf l _ => some l
    | _ => none

/-- Labels of the final callbacks of a description list, in order. -/
def finalLabels (ds : List (StepDesc E)) : List Nat :=
  ds.filterMap fun d =>
    match d with
    | .final l => some l
    | _ => none

/-- The closures of the deferred entries of a description list, in order. -/
def deferFns (ds : List (StepDesc E)) : List (List Nat → List Nat × Option E) :=
  ds.filterMap fun d =>
    match d with
    | .defered l => some (fun s => (s ++ [l], none))
    | .deferf l out => some (fun s => (s ++ [l], out))
    | _ => none

/-- Spec side: the error of the first failing main step, if any. -/
def specErr : List (StepDesc E) → Option E
  | [] => none
  | .main _ (some e) :: _ => some e
  | _ :: r => specErr r

theorem foldl_registerStep (ds : List (StepDesc E)) :
    ∀ g : Group (List Nat) E,
      List.foldl registerStep g ds =
        { funcs := g.funcs ++ mkFuncs ds, final := g.final ++ mkFinals ds } := by
  induction ds with
  | nil => intro g; simp [mkFuncs, mkFinals]
  | cons d r ih =>
    intro g
    cases d with
    | main l out =>
      rw [List.foldl_cons, ih]
      simp [registerStep, Group.Add, mkFuncs, mkFinals]
    | defered l =>
      rw [List.foldl_cons, ih]
      simp [registerStep, Group.Defer, mkFuncs, mkFinals]
    | deferf l out =>
      rw [List.foldl_cons, ih]
      simp [registerStep, mkFuncs, mkFinals]
    | final l =>
      rw [List.foldl_cons, ih]
      simp [registerStep, Group.Final, mkFuncs, mkFinals]

theorem execWalk_mkFuncs (ds : List (StepDesc E)) :
    ∀ (s : List Nat) (acc : List (List Nat → List Nat × Option E)),
      execWalk (mkFuncs ds) s acc =
        (s ++ mainLabels (specReached ds), specErr ds,
          (deferFns (specReached ds)).reverse ++ acc) := by
  induction ds with
  | nil =>
    intro s acc
    simp [mkFuncs, specReached, mainLabels, specErr, deferFns, execWalk]
  | cons d r ih =>
    intro s acc
    cases d with
    | main l out =>
      cases out with
      | none =>
        simp [mkFuncs, execWalk, specReached, mainLabels, specErr, deferFns, ih]
      | some e =>
        simp [mkFuncs, execWalk, specReached, mainLabels, specErr, deferFns]
    | defered l =>
      simp [mkFuncs, execWalk, specReached, mainLabels, specErr, deferFns, ih]
    | deferf l out =>
      simp [mkFuncs, execWalk, specReached, mainLabels, specErr, deferFns, ih]
    | final l =>
      simp [mkFuncs, execWalk, specReached, mainLabels, specErr, deferFns, ih]

theorem runDefers_append (xs ys : List (σ → σ × Option E)) :
    ∀ s, runDefers (xs ++ ys) s = runDefers ys (runDefers xs s) := by
  induction xs with
  | nil => intro s; rfl
  | cons f r ih => intro s; simp [runDefers, ih]

theorem runDefers_reverse_deferFns (ds : List (StepDesc E)) :
    ∀ s, runDefers ((deferFns ds).reverse) s = s ++ (deferLabels ds).reverse := by
  induction ds with
  | nil => intro s; simp [deferFns, deferLabels, runDefers]
  | cons d r ih =>
    intro s
    cases d with
    | main l out => simpa [deferFns, deferLabels] using ih s
    | defered l =>
      simp only [deferFns, deferLabels, List.filterMap_cons] at ih ⊢
      simp only [List.reverse_cons, runDefers_append, ih, runDefers]
      simp [List.append_assoc]
    | deferf l out =>
      simp only [deferFns, deferLabels, List.filterMap_cons] at ih ⊢
      simp only [List.reverse_cons, runDefers_append, ih, runDefers]
      simp [List.append_assoc]
    | final l => simpa [deferFns, deferLabels] using ih s

theorem runFinals_mkFinals (ds : List (StepDesc E)) :
    ∀ s, runFinals (mkFinals ds) s = s ++ finalLabels ds := by
  induction ds with
  | nil => intro s; simp [mkFinals, finalLabels, runFinals]
  | cons d r ih =>
    intro s
    cases d with
    | main l out => simpa [mkFinals, finalLabels] using ih s
    | defered l => simpa [mkFinals, finalLabels] using ih s
    | deferf l out => simpa [mkFinals, finalLabels] using ih s
    | final l => simp [mkFinals, finalLabels, runFinals, ih]

/-- Central characterisation of `Exec` on instrumented groups: the log gains
the labels of the main steps the walk reaches, then the deferred entries
registered before the stop point in LIFO order, then every final callback in
FIFO order; the returned error is the first failing main step's error. -/
theorem Exec_buildGroup (ds : List (StepDesc E)) (s : List Nat) :
    (buildGroup ds).Exec s =
      (s ++ mainLabels (specReached ds) ++ (deferLabels (specReached ds)).reverse
          ++ finalLabels ds,
        specErr ds) := by
  unfold buildGroup
  rw [foldl_registerStep]
  show Group.Exec ⟨[] ++ mkFuncs ds, [] ++ mkFinals ds⟩ s = _
  unfold Group.Exec
  rw [List.nil_append, List.nil_append, execWalk_mkFuncs]
  simp only [List.append_nil]
  rw [runDefers_reverse_deferFns, runFinals_mkFinals]

@[simp] theorem specReached_nil : specReached ([] : List (StepDesc E)) = [] := rfl

@[simp] theorem specReached_main_some (l : Nat) (e : E) (r : List (StepDesc E)) :
    specReached (.main l (some e) :: r) = [.main l (some e)] := rfl

@[simp] theorem specReached_main_none (l : Nat) (r : List (StepDesc E)) :
    specReached (.main l none :: r) = .main l none :: specReached r := rfl

@[simp] theorem specReached_defered (l : Nat) (r : List (StepDesc E)) :
    specReached (.defered l :: r) = .defered l :: specReached r := rfl

@[simp] theorem specReached_deferf (l : Nat) (out : Option E) (r : List (StepDesc E)) :
    specReached (.deferf l out :: r) = .deferf l out :: specReached r := rfl

@[simp] theorem specReached_final (l : Nat) (r : List (StepDesc E)) :
    specReached (.final l :: r) = .final l :: specReached r := rfl

@[simp] theorem specErr_nil : specErr ([] : List (StepDesc E)) = none := rfl

@[simp] theorem specErr_main_some (l : Nat) (e : E) (r : List (StepDesc E)) :
    specErr (.main l (some e) :: r) = some e := rfl

@[simp] theorem specErr_main_none (l : Nat) (r : List (StepDesc E)) :
    specErr (.main l none :: r) = specErr r := rfl

@[simp] theorem specErr_defered (l : Nat) (r : List (StepDesc E)) :
    specErr (.defered l :: r) = specErr r := rfl

@[simp] theorem specErr_deferf (l : Nat) (out : Option E) (r : List (StepDesc E)) :
    specErr (.deferf l out :: r) = specErr r := rfl

@[simp] theorem specErr_final (l : Nat) (r : List (StepDesc E)) :
    specErr (.final l :: r) = specErr r := rfl

@[simp] theorem mainLabels_nil : mainLabels ([] : List (StepDesc E)) = [] := rfl

@[simp] theorem mainLabels_main (l : Nat) (out : Option E) (r : List (StepDesc E)) :
    mainLabels (.main l out :: r) = l :: mainLabels r := rfl

@[simp] theorem mainLabels_defered (l : Nat) (r : List (StepDesc E)) :
    mainLabels (.defered l :: r) = mainLabels r := rfl

@[simp] theorem mainLabels_deferf (l : Nat) (out : Option E) (r : List (StepDesc E)) :
    mainLabels (.deferf l out :: r) = mainLabels r := rfl

@[simp] theorem mainLabels_final (l : Nat) (r : List (StepDesc E)) :
    mainLabels (.final l :: r) = mainLabels r := rfl

@[simp] theorem mainLabels_append (xs ys : List (StepDesc E)) :
    mainLabels (xs ++ ys) = mainLabels xs ++ mainLabels ys := by
  simp [mainLabels]

@[simp] theorem deferLabels_nil : deferLabels ([] : List (StepDesc E)) = [] := rfl

@[simp] theorem deferLabels_main (l : Nat) (out : Option E) (r : List (StepDesc E)) :
    deferLabels (.main l out :: r) = deferLabels r := rfl

@[simp] theorem deferLabels_defered (l : Nat) (r : List (StepDesc E)) :
    deferLabels (.defered l :: r) = l :: deferLabels r := rfl

@[simp] theorem deferLabels_deferf (l : Nat) (out : Option E) (r : List (StepDesc E)) :
    deferLabels (.deferf l out :: r) = l :: deferLabels r := rfl

@[simp] theorem deferLabels_final (l : Nat) (r : List (StepDesc E)) :
    deferLabels (.final l :: r) = deferLabels r := rfl

@[simp] theorem deferLabels_append (xs ys : List (StepDesc E)) :
    deferLabels (xs ++ ys) = deferLabels xs ++ deferLabels ys := by
  simp [deferLabels]

@[simp] theorem finalLabels_nil : finalLabels ([] : List (StepDesc E)) = [] := rfl

@[simp] theorem finalLabels_main (l : Nat) (out : Option E) (r : List (StepDesc E)) :
    finalLabels (.main l out :: r) = finalLabels r := rfl

@[simp] theorem finalLabels_defered (l : Nat) (r : List (StepDesc E)) :
    finalLabels (.defered l :: r) = finalLabels r := rfl

@[simp] theorem finalLabels_deferf (l : Nat) (out : Option E) (r : List (StepDesc E)) :
    finalLabels (.deferf l out :: r) = finalLabels r := rfl

@[simp] theorem finalLabels_final (l : Nat) (r : List (StepDesc E)) :
    finalLabels (.final l :: r) = l :: finalLabels r := rfl

@[simp] theorem finalLabels_append (xs ys : List (StepDesc E)) :
    finalLabels (xs ++ ys) = finalLabels xs ++ finalLabels ys := by
  simp [finalLabels]

/-- Descriptions of a sequence of pure main-step registrations. -/
def mainDescs : List (Nat × Option E) → List (StepDesc E)
  | [] => []
  | p :: r => .main p.1 p.2 :: mainDescs r

@[simp] theorem mainDescs_nil : mainDescs ([] : List (Nat × Option E)) = [] := rfl

@[simp] theorem mainDescs_cons (p : Nat × Option E) (r : List (Nat × Option E)) :
    mainDescs (p :: r) = .main p.1 p.2 :: mainDescs r := rfl

@[simp] theorem mainDescs_append (xs ys : List (Nat × Option E)) :
    mainDescs (xs ++ ys) = (mainDescs xs : List (StepDesc E)) ++ mainDescs ys := by
  induction xs with
  | nil => simp
  | cons p r ih => simp [ih]

/-- Descriptions of a sequence of final-callback registrations. -/
def finalDescs : List Nat → List (StepDesc E)
  | [] => []
  | l :: r => .final l :: finalDescs r

@[simp] theorem finalDescs_nil : finalDescs ([] : List Nat) = ([] : List (StepDesc E)) := rfl

@[simp] theorem finalDescs_cons (l : Nat) (r : List Nat) :
    finalDescs (l :: r) = (.final l : StepDesc E) :: finalDescs r := rfl

theorem mainDescs_all_none (ms : List (Nat × Option E)) (h : ∀ p ∈ ms, p.2 = none) :
    specReached (mainDescs ms) = mainDescs ms ∧
      specErr (mainDescs ms) = (none : Option E) := by
  induction ms with
  | nil => simp
  | cons p r ih =>
    obtain ⟨a, b⟩ := p
    have hp : b = none := h (a, b) (by simp)
    subst hp
    have h2 := ih (fun q hq => h q (by simp [hq]))
    simp [h2.1, h2.2]

theorem mainLabels_mainDescs (ms : List (Nat × Option E)) :
    mainLabels (mainDescs ms) = ms.map Prod.fst ∧
      deferLabels ((mainDescs ms : List (StepDesc E))) = [] ∧
      finalLabels ((mainDescs ms : List (StepDesc E))) = [] := by
  induction ms with
  | nil => simp
  | cons p r ih => simp [ih.1, ih.2.1, ih.2.2]

theorem mainDescs_first_failure (l : Nat) (e : E) (post : List (Nat × Option E)) :
    ∀ pre : List (Nat × Option E), (∀ p ∈ pre, p.2 = none) →
      specReached (mainDescs (pre ++ (l, some e) :: post))
          = mainDescs pre ++ [StepDesc.main l (some e)] ∧
        specErr (mainDescs (pre ++ (l, some e) :: post)) = some e := by
  intro pre
  induction pre with
  | nil => simp
  | cons p r ih =>
    intro h
    obtain ⟨a, b⟩ := p
    have hp : b = none := h (a, b) (by simp)
    subst hp
    have h2 := ih (fun q hq => h q (by simp [hq]))
    simp only [mainDescs_append, mainDescs_cons] at h2
    simp [h2.1, h2.2]

/-- C1: on a group of registered main steps, if step k is the first to report
a failure, `Exec` returns exactly that error and the log shows that only
steps 1..k executed; if every main step succeeds (including the empty group),
`Exec` returns no-error; and in general `Exec`'s returned error is exactly
the first failing main step's error, so one error is surfaced per call. -/
theorem C1_first_main_failure :
    (∀ (pre : List (Nat × Option E)) (l : Nat) (e : E)
        (post : List (Nat × Option E)) (s : List Nat),
        (∀ p ∈ pre, p.2 = none) →
        (buildGroup (mainDescs (pre ++ (l, some e) :: post))).Exec s
          = (s ++ pre.map Prod.fst ++ [l], some e))
    ∧ (∀ (ms : List (Nat × Option E)) (s : List Nat),
        (∀ p ∈ ms, p.2 = none) →
        (buildGroup (mainDescs ms)).Exec s = (s ++ ms.map Prod.fst, none))
    ∧ (∀ (ds : List (StepDesc E)) (s : List Nat),
        ((buildGroup ds).Exec s).2 = specErr ds) := by
  refine ⟨?_, ?_, ?_⟩
  · intro pre l e post s h
    obtain ⟨h1, h2⟩ := mainDescs_first_failure l e post pre h
    obtain ⟨h3, h4, h5⟩ := mainLabels_mainDescs pre
    obtain ⟨h6, h7, h8⟩ := mainLabels_mainDescs post
    rw [Exec_buildGroup, h1, h2]
    simp [h3, h4, h5, h8, List.append_assoc]
  · intro ms s h
    obtain ⟨h1, h2⟩ := mainDescs_all_none ms h
    obtain ⟨h3, h4, h5⟩ := mainLabels_mainDescs ms
    rw [Exec_buildGroup, h1, h2, h3, h4, h5]
    simp
  · intro ds s
    rw [Exec_buildGroup]

/-- C1 witness: a concrete three-step group whose second step fails; only the
first two steps appear in the log and the second step's error is returned. -/
theorem C1_first_main_failure_witness :
    (buildGroup (mainDescs ([((1 : Nat), (none : Option Nat))]
        ++ ((2, some 5) : Nat × Option Nat) :: [(3, some 7)]))).Exec []
      = (([] : List Nat) ++ [((1 : Nat), (none : Option Nat))].map Prod.fst ++ [2], some 5) :=
  C1_first_main_failure.1 [(1, none)] 2 5 [(3, some 7)] [] (by decide)

theorem deferf_out_labels (l : Nat) (out : Option E) (ds2 : List (StepDesc E)) :
    ∀ ds1 : List (StepDesc E),
      mainLabels (specReached (ds1 ++ .deferf l out :: ds2))
          = mainLabels (specReached (ds1 ++ .deferf l none :: ds2)) ∧
        deferLabels (specReached (ds1 ++ .deferf l out :: ds2))
          = deferLabels (specReached (ds1 ++ .deferf l none :: ds2)) ∧
        specErr (ds1 ++ .deferf l out :: ds2) = specErr (ds1 ++ .deferf l none :: ds2) ∧
        finalLabels (ds1 ++ .deferf l out :: ds2)
          = finalLabels (ds1 ++ .deferf l none :: ds2) := by
  intro ds1
  induction ds1 with
  | nil => simp
  | cons d r ih =>
    cases d with
    | main a b =>
      cases b with
      | none => simp [ih.1, ih.2.1, ih.2.2.1, ih.2.2.2]
      | some e => simp
    | defered a => simp [ih.1, ih.2.1, ih.2.2.1, ih.2.2.2]
    | deferf a b => simp [ih.1, ih.2.1, ih.2.2.1, ih.2.2.2]
    | final a => simp [ih.1, ih.2.1, ih.2.2.1, ih.2.2.2]

/-- C2: for every registration sequence, the deferred steps accumulated
before the point where the walk stopped run after the main walk in LIFO
order, deferred steps registered after the stop point do not run (the log is
main labels of the reached prefix, then reached deferred labels reversed,
then finals); a `d`-flagged entry's returned error changes neither `Exec`'s
result nor any execution; and registering deferred A, main M, deferred B
yields observable order [M, B, A]. -/
theorem C2_deferred_order :
    (∀ (ds : List (StepDesc E)) (s : List Nat),
        (buildGroup ds).Exec s
          = (s ++ mainLabels (specReached ds) ++ (deferLabels (specReached ds)).reverse
              ++ finalLabels ds, specErr ds))
    ∧ (∀ (ds1 : List (StepDesc E)) (l : Nat) (out : Option E)
          (ds2 : List (StepDesc E)) (s : List Nat),
        (buildGroup (ds1 ++ .deferf l out :: ds2)).Exec s
          = (buildGroup (ds1 ++ .deferf l none :: ds2)).Exec s)
    ∧ (buildGroup [StepDesc.defered 1, .main 2 none, .defered 3]).Exec ([] : List Nat)
        = ([2, 3, 1], (none : Option E)) := by
  refine ⟨fun ds s => Exec_buildGroup ds s, ?_, ?_⟩
  · intro ds1 l out ds2 s
    obtain ⟨h1, h2, h3, h4⟩ := deferf_out_labels l out ds2 ds1
    rw [Exec_buildGroup, Exec_buildGroup, h1, h2, h3, h4]
  · rw [Exec_buildGroup]
    simp

/-- Strip the final-callback registrations from a description list. -/
def dropFinals : List (StepDesc E) → List (StepDesc E)
  | [] => []
  | .final _ :: r => dropFinals r
  | d :: r => d :: dropFinals r

@[simp] theorem dropFinals_nil : dropFinals ([] : List (StepDesc E)) = [] := rfl

@[simp] theorem dropFinals_main (l : Nat) (out : Option E) (r : List (StepDesc E)) :
    dropFinals (.main l out :: r) = .main l out :: dropFinals r := rfl

@[simp] theorem dropFinals_defered (l : Nat) (r : List (StepDesc E)) :
    dropFinals (.defered l :: r) = .defered l :: dropFinals r := rfl

@[simp] theorem dropFinals_deferf (l : Nat) (out : Option E) (r : List (StepDesc E)) :
    dropFinals (.deferf l out :: r) = .deferf l out :: dropFinals r := rfl

@[simp] theorem dropFinals_final (l : Nat) (r : List (StepDesc E)) :
    dropFinals (.final l :: r) = dropFinals r := rfl

theorem dropFinals_labels (ds : List (StepDesc E)) :
    mainLabels (specReached (dropFinals ds)) = mainLabels (specReached ds) ∧
      deferLabels (specReached (dropFinals ds)) = deferLabels (specReached ds) ∧
      specErr (dropFinals ds) = specErr ds ∧
      finalLabels (dropFinals ds) = [] := by
  induction ds with
  | nil => simp
  | cons d r ih =>
    cases d with
    | main a b =>
      cases b with
      | none => simp [ih.1, ih.2.1, ih.2.2.1, ih.2.2.2]
      | some e => simp [ih.2.2.2]
    | defered a => simp [ih.1, ih.2.1, ih.2.2.1, ih.2.2.2]
    | deferf a b => simp [ih.1, ih.2.1, ih.2.2.1, ih.2.2.2]
    | final a => simp [ih.1, ih.2.1, ih.2.2.1, ih.2.2.2]

theorem finalDescs_labels (fs : List Nat) :
    specReached ((finalDescs fs : List (StepDesc E))) = finalDescs fs ∧
      mainLabels ((finalDescs fs : List (StepDesc E))) = [] ∧
      deferLabels ((finalDescs fs : List (StepDesc E))) = [] ∧
      specErr ((finalDescs fs : List (StepDesc E))) = none ∧
      finalLabels ((finalDescs fs : List (StepDesc E))) = fs := by
  induction fs with
  | nil => simp
  | cons a r ih => simp [ih.1, ih.2.1, ih.2.2.1, ih.2.2.2.1, ih.2.2.2.2]

/-- C3: final callbacks run exactly once per `Exec` call, in FIFO order,
after every main and deferred step that ran, whether or not a main step
failed: the log of a group is the log of the same group stripped of its
finals, followed by every final label once, and the returned error is
unchanged by the finals; a group with no main or deferred registrations
returns no-error and still runs its finals. -/
theorem C3_finals_always_run :
    (∀ (ds : List (StepDesc E)) (s : List Nat),
        (buildGroup ds).Exec s
          = (((buildGroup (dropFinals ds)).Exec s).1 ++ finalLabels ds,
              ((buildGroup (dropFinals ds)).Exec s).2))
    ∧ (∀ (fs : List Nat) (s : List Nat),
        (buildGroup ((finalDescs fs : List (StepDesc E)))).Exec s = (s ++ fs, none)) := by
  constructor
  · intro ds s
    obtain ⟨h1, h2, h3, h4⟩ := dropFinals_labels ds
    rw [Exec_buildGroup, Exec_buildGroup, h1, h2, h3, h4]
    simp [List.append_assoc]
  · intro fs s
    obtain ⟨h1, h2, h3, h4, h5⟩ := finalDescs_labels (E := E) fs
    rw [Exec_buildGroup, h1, h2, h3, h4, h5]
    simp

/-- C10: the registration operations only append (steps are never removed or
mutated after registration, and `Exec`, taking the group as a value, has no
way to change it), and `Exec` may be invoked again: a second call re-runs
every registered step under the same ordering rules, appending the same
trace to the log left by the first call and returning the same error. -/
theorem C10_exec_reinvocable :
    (∀ (g : Group σ E) (f : σ → σ × Option E),
        (g.Add f).funcs = g.funcs ++ [⟨f, false⟩] ∧ (g.Add f).final = g.final)
    ∧ (∀ (g : Group σ E) (f : σ → σ),
        (g.Defer f).funcs = g.funcs ++ [⟨fun s => (f s, none), true⟩]
          ∧ (g.Defer f).final = g.final)
    ∧ (∀ (g : Group σ E) (f : σ → σ),
        (g.Final f).funcs = g.funcs ∧ (g.Final f).final = g.final ++ [f])
    ∧ (∀ (ds : List (StepDesc E)) (s : List Nat),
        (buildGroup ds).Exec (((buildGroup ds).Exec s).1)
          = (((buildGroup ds).Exec s).1 ++ mainLabels (specReached ds)
              ++ (deferLabels (specReached ds)).reverse ++ finalLabels ds,
              specErr ds)
          ∧ ((buildGroup ds).Exec (((buildGroup ds).Exec s).1)).2
              = ((buildGroup ds).Exec s).2) := by
  refine ⟨fun g f => ⟨rfl, rfl⟩, fun g f => ⟨rfl, rfl⟩, fun g f => ⟨rfl, rfl⟩, ?_⟩
  intro ds s
  constructor
  · rw [Exec_buildGroup]
  · simp only [Exec_buildGroup]


/-
The reflective layer.  `AddF` takes an arbitrary function value and argument
list.  We model the `interface\x7b\x7d` values the library moves around as a
small closed universe: integers and strings (the shapes the repository's
tests exercise), a non-nil error value carrying a code, and the nil
interface value.  The type assertion `vals[i].Interface().(error)` in the
thunk succeeds exactly on a non-nil error value, so `verr` is the only
error-kind constructor; a nil `error` result converts to a nil
`interface\x7b\x7d`, for which the assertion fails.
-/

/-- A dynamic value: int, string, non-nil error (identified by a code), or
the nil interface value. -/
inductive GoVal where
  | vint (n : Int)
  | vstr (s : String)
  | verr (code : Nat)
  | vnil
deriving DecidableEq

/-- Whether the type assertion `.(error)` on the value succeeds: only a
non-nil value whose dynamic type implements `error` passes. -/
def isErrKind : GoVal → Bool
  | .verr _ => true
  | _ => false

/-- The result-partition loop of the `AddF` thunk: for each returned value,
if it asserts to `error` the named return `err` is overwritten and the value
skipped (`continue`); otherwise it is appended to `out`. -/
def partitionLoop : List GoVal → Option GoVal → List GoVal → Option GoVal × List GoVal
  | [], err, out => (err, out)
  | v :: rest, err, out =>
    if isErrKind v then partitionLoop rest (some v) out
    else partitionLoop rest err (out ++ [v])

/-- The static type of a destination pointer's pointee. -/
inductive GoTy where
  | tint
  | tstr
  | terr
deriving DecidableEq

/-- Whether `reflect.Set` of the value into a destination of the given
pointee type succeeds.  A nil interface value gives the zero `reflect.Value`,
and `Set` with a zero `Value` panics whatever the destination type. -/
def assignable : GoTy → GoVal → Bool
  | .tint, .vint _ => true
  | .tstr, .vstr _ => true
  | .terr, .verr _ => true
  | _, _ => false

/-- A destination cell: the pointee type and the current contents of the
pointed-to location. -/
structure Dest where
  ty : GoTy
  content : Option GoVal
deriving DecidableEq

/-- A runtime failure of a fill operation, modelling the Go panics: slice
index out of range, `reflect.Set` failure, and (a modelling artifact that
cannot arise from the Go code, where every destination is a live pointer)
a destination identifier outside the cell store. -/
inductive FillErr where
  | indexOutOfRange
  | cannotSet
  | badDest
deriving DecidableEq

/-- `sliceFiller` is `[]interface\x7b\x7d`: the captured values. -/
abbrev sliceFiller : Type := List GoVal

/-- `sliceFiller.FillAt(i, arg)`: index the captured values (Go panics when
`i` is out of range) and `Set` the destination cell through the pointer
`d` (an index into the cell store `cs`). -/
def sliceFiller.FillAt (f : sliceFiller) (i : Nat) (d : Nat) (cs : List Dest) :
    Except FillErr (List Dest) :=
  match (f : List GoVal)[i]? with
  | none => .error .indexOutOfRange
  | some v =>
    match cs[d]? with
    | none => .error .badDest
    | some dst =>
      if assignable dst.ty v then .ok (cs.set d ⟨dst.ty, some v⟩)
      else .error .cannotSet

/-- The loop of `sliceFiller.Fill`: `for i := 0; i < len(f) && i < len(args);
i++` calling `FillAt(i, args[i])`. -/
def sliceFillAux (f : sliceFiller) : Nat → List Nat → List Dest → Except FillErr (List Dest)
  | _, [], cs => .ok cs
  | i, d :: rest, cs =>
    if i < (f : List GoVal).length then
      match sliceFiller.FillAt f i d cs with
      | .ok cs1 => sliceFillAux f (i + 1) rest cs1
      | .error e => .error e
    else .ok cs

/-- `sliceFiller.Fill(args...)`: positional fill, stopping at whichever of
the value count and the destination count is smaller. -/
def sliceFiller.Fill (f : sliceFiller) (ds : List Nat) (cs : List Dest) :
    Except FillErr (List Dest) :=
  sliceFillAux f 0 ds cs

/-- The `asyncFiller` struct: captured values, the queue of fill requests
received before readiness, and the ready flag.  The mutex only serialises
the operations below, which we model as atomic steps. -/
structure asyncFiller where
  values : List GoVal
  toFill : List (Nat × Nat)
  ready : Bool
deriving DecidableEq

/-- The zero value of `asyncFiller`, as allocated by `var filler
asyncFiller` in `AddF`. -/
def asyncFiller.init : asyncFiller := ⟨[], [], false⟩

/-- The drain loop of `asyncFiller.set`: service each queued request against
the newly stored values. -/
def drainFills (vals : List GoVal) : List (Nat × Nat) → List Dest →
    Except FillErr (List Dest)
  | [], cs => .ok cs
  | q :: rest, cs =>
    match sliceFiller.FillAt vals q.1 q.2 cs with
    | .ok cs1 => drainFills vals rest cs1
    | .error e => .error e

/-- `asyncFiller.set(v)`: store the values, raise `ready`, service the
queued requests and clear the queue. -/
def asyncFiller.set (f : asyncFiller) (v : List GoVal) (cs : List Dest) :
    Except FillErr (asyncFiller × List Dest) :=
  match drainFills v f.toFill cs with
  | .ok cs1 => .ok (⟨v, [], true⟩, cs1)
  | .error e => .error e

/-- `asyncFiller.FillAt(i, arg)`: serve immediately from the stored values
when ready, otherwise queue the request. -/
def asyncFiller.FillAt (f : asyncFiller) (i : Nat) (d : Nat) (cs : List Dest) :
    Except FillErr (asyncFiller × List Dest) :=
  if f.ready then
    match sliceFiller.FillAt f.values i d cs with
    | .ok cs1 => .ok (f, cs1)
    | .error e => .error e
  else .ok ({ f with toFill := f.toFill ++ [(i, d)] }, cs)

/-- The loop of `asyncFiller.Fill`: `for i := range args` calling
`FillAt(i, args[i])` — note it iterates over every destination, with no
bound by the value count. -/
def asyncFillAux : asyncFiller → Nat → List Nat → List Dest →
    Except FillErr (asyncFiller × List Dest)
  | f, _, [], cs => .ok (f, cs)
  | f, i, d :: rest, cs =>
    match asyncFiller.FillAt f i d cs with
    | .ok (f1, cs1) => asyncFillAux f1 (i + 1) rest cs1
    | .error e => .error e

/-- `asyncFiller.Fill(args...)`. -/
def asyncFiller.Fill (f : asyncFiller) (ds : List Nat) (cs : List Dest) :
    Except FillErr (asyncFiller × List Dest) :=
  asyncFillAux f 0 ds cs

/-- Whether an operation completed without a Go panic. -/
def exOk {α : Type} : Except FillErr α → Bool
  | .ok _ => true
  | .error _ => false

/-
The `AddF` registration.  A function value is either not a function at all
(`none`, on which `reflect.TypeOf(f).Kind() != reflect.Func` panics at
registration) or a function of `numIn` parameters whose single invocation
with the bound arguments returns a list of result values.  `gid` identifies
the function in the call log so the theorems can observe invocations.
-/

/-- A function value for reflective registration. -/
structure GoFunc where
  numIn : Nat
  gid : Nat
  run : List GoVal → List GoVal

/-- The observable world in which `AddF` thunks execute: the filler slots
(the `slot` argument of the thunk is the address of the `var filler
asyncFiller` allocated by its `AddF` call), the destination cells, the log
of function invocations (function id and bound arguments), and a record of
a Go panic raised inside a thunk by a failing queued fill — theorems below
only concern executions in which no such panic occurs. -/
structure AState where
  fillers : List asyncFiller
  cells : List Dest
  callLog : List (Nat × List GoVal)
  panicked : Option FillErr
deriving DecidableEq

/-- The thunk `AddF` registers: call the function once with the bound
arguments, partition the results into the error outcome and the captured
outputs, feed the outputs to the filler (`filler.set(out)`), and return the
error. -/
def addFThunk (slot : Nat) (fn : GoFunc) (rArgs : List GoVal) (st : AState) :
    AState × Option GoVal :=
  let pr := partitionLoop (fn.run rArgs) none []
  let st1 := { st with callLog := st.callLog ++ [(fn.gid, rArgs)] }
  match st1.fillers[slot]? with
  | none => ({ st1 with panicked := some .badDest }, pr.1)
  | some fl =>
    match fl.set pr.2 st1.cells with
    | .ok (fl1, cs1) =>
        ({ st1 with fillers := st1.fillers.set slot fl1, cells := cs1 }, pr.1)
    | .error e => ({ st1 with panicked := some e }, pr.1)

/-- A registration-time panic of `AddF`: the value is not callable, or the
argument-binding loop `rArgs[i] = args[i]` for `i < t.NumIn()` indexes past
the supplied arguments. -/
inductive RegErr where
  | nonFunc
  | argOutOfRange
deriving DecidableEq

/-- Whether registration succeeded (no panic). -/
def regOk {α : Type} : Except RegErr α → Bool
  | .ok _ => true
  | .error _ => false

/-- `Group.AddF`: panic on a non-function; bind the first `numIn` supplied
arguments (panicking when fewer are supplied, silently ignoring extras);
register the thunk via `Add` without invoking anything.  The returned
`&filler` pointer is modelled by the caller-chosen fresh `slot`. -/
def Group.AddF (g : Group AState GoVal) (slot : Nat) (fv : Option GoFunc)
    (args : List GoVal) : Except RegErr (Group AState GoVal) :=
  match fv with
  | none => .error .nonFunc
  | some fn =>
    if fn.numIn ≤ args.length then
      .ok (g.Add (addFThunk slot fn (args.take fn.numIn)))
    else .error .argOutOfRange


theorem partitionLoop_foldl (rs : List GoVal) :
    ∀ (err : Option GoVal) (out : List GoVal),
      partitionLoop rs err out =
        (rs.foldl (fun acc v => if isErrKind v then some v else acc) err,
          out ++ rs.filter (fun v => !isErrKind v)) := by
  induction rs with
  | nil => intro err out; simp [partitionLoop]
  | cons v r ih =>
    intro err out
    cases hv : isErrKind v with
    | true => simp [partitionLoop, hv, ih, List.filter_cons]
    | false => simp [partitionLoop, hv, ih, List.filter_cons]

/-- C4 counterexample: a function returning two error-kind values.  The
claim predicts the first is taken as the error and the second captured as an
ordinary output; the code takes the last and captures neither. -/
theorem C4_counterexample :
    partitionLoop [GoVal.verr 1, GoVal.verr 2] none [] = (some (GoVal.verr 2), [])
      ∧ partitionLoop [GoVal.verr 1, GoVal.verr 2] none []
          ≠ (some (GoVal.verr 1), [GoVal.verr 2]) := by
  exact ⟨rfl, by decide⟩

/-- C4 (amended): the thunk built by `AddF` invokes the wrapped function
exactly once per execution (one call-log entry), and partitions the results
by taking the LAST error-kind result as the step's error outcome while
removing every error-kind result from the captured output sequence (none of
them become ordinary outputs); the non-error results are captured in their
original order. -/
theorem C4_partition_last_error :
    (∀ rs : List GoVal,
        partitionLoop rs none [] =
          (rs.foldl (fun acc v => if isErrKind v then some v else acc) none,
            rs.filter (fun v => !isErrKind v)))
    ∧ (∀ (slot : Nat) (fn : GoFunc) (rArgs : List GoVal) (st : AState),
        ((addFThunk slot fn rArgs st).1).callLog = st.callLog ++ [(fn.gid, rArgs)]) := by
  constructor
  · intro rs
    simpa using partitionLoop_foldl rs none []
  · intro slot fn rArgs st
    simp only [addFThunk]
    cases h : st.fillers[slot]? with
    | none => simp [h]
    | some fl =>
      cases h2 : fl.set (partitionLoop (fn.run rArgs) none []).2 st.cells with
      | ok pr => simp [h, h2]
      | error e => simp [h, h2]

@[simp] theorem isErrKind_vint (n : Int) : isErrKind (GoVal.vint n) = false := rfl

@[simp] theorem isErrKind_vstr (s : String) : isErrKind (GoVal.vstr s) = false := rfl

@[simp] theorem isErrKind_verr (code : Nat) : isErrKind (GoVal.verr code) = true := rfl

@[simp] theorem isErrKind_vnil : isErrKind GoVal.vnil = false := rfl

theorem partitionLoop_append (xs ys : List GoVal) :
    ∀ (err : Option GoVal) (out : List GoVal),
      partitionLoop (xs ++ ys) err out
        = partitionLoop ys (partitionLoop xs err out).1 (partitionLoop xs err out).2 := by
  induction xs with
  | nil => intro err out; simp [partitionLoop]
  | cons v r ih =>
    intro err out
    cases hv : isErrKind v with
    | true => simp only [List.cons_append, partitionLoop, hv, if_true]; exact ih _ _
    | false =>
      simp only [List.cons_append, partitionLoop, hv, Bool.false_eq_true, if_false]
      exact ih _ _

theorem partitionLoop_no_err (rs : List GoVal) (h : ∀ v ∈ rs, isErrKind v = false) :
    ∀ (err : Option GoVal) (out : List GoVal),
      partitionLoop rs err out = (err, out ++ rs) := by
  induction rs with
  | nil => intro err out; simp [partitionLoop]
  | cons v r ih =>
    intro err out
    have hv : isErrKind v = false := h v (by simp)
    simp only [partitionLoop, hv, Bool.false_eq_true, if_false]
    rw [ih (fun w hw => h w (by simp [hw]))]
    simp

/-- C9: a nil value in an error-typed result position does not assert to
`error`, so it is not removed: it is captured at its original position, and
the captured sequence has one more element (the nil) than when the same
function returns a non-nil error in that position. -/
theorem C9_nil_error_captured :
    ∀ (pre post : List GoVal) (e : Nat),
      (∀ v ∈ pre, isErrKind v = false) → (∀ v ∈ post, isErrKind v = false) →
      partitionLoop (pre ++ GoVal.vnil :: post) none []
          = (none, pre ++ GoVal.vnil :: post)
        ∧ partitionLoop (pre ++ GoVal.verr e :: post) none []
          = (some (GoVal.verr e), pre ++ post)
        ∧ ((partitionLoop (pre ++ GoVal.vnil :: post) none []).2).length
          = ((partitionLoop (pre ++ GoVal.verr e :: post) none []).2).length + 1 := by
  intro pre post e hpre hpost
  have h1 : partitionLoop (pre ++ GoVal.vnil :: post) none []
      = (none, pre ++ GoVal.vnil :: post) := by
    rw [partitionLoop_append, partitionLoop_no_err pre hpre]
    simp only [partitionLoop, isErrKind_vnil, Bool.false_eq_true, if_false]
    rw [partitionLoop_no_err post hpost]
    simp
  have h2 : partitionLoop (pre ++ GoVal.verr e :: post) none []
      = (some (GoVal.verr e), pre ++ post) := by
    rw [partitionLoop_append, partitionLoop_no_err pre hpre]
    simp only [partitionLoop, isErrKind_verr, if_true]
    rw [partitionLoop_no_err post hpost]
    simp
  refine ⟨h1, h2, ?_⟩
  rw [h1, h2]
  simp
  omega

/-- C9 witness: a function returning an int, then the error slot, then a
string. -/
theorem C9_nil_error_captured_witness :
    partitionLoop ([GoVal.vint 1] ++ GoVal.vnil :: [GoVal.vstr "x"]) none []
        = (none, [GoVal.vint 1] ++ GoVal.vnil :: [GoVal.vstr "x"])
      ∧ partitionLoop ([GoVal.vint 1] ++ GoVal.verr 9 :: [GoVal.vstr "x"]) none []
        = (some (GoVal.verr 9), [GoVal.vint 1] ++ [GoVal.vstr "x"])
      ∧ ((partitionLoop ([GoVal.vint 1] ++ GoVal.vnil :: [GoVal.vstr "x"]) none []).2).length
        = ((partitionLoop ([GoVal.vint 1] ++ GoVal.verr 9 :: [GoVal.vstr "x"]) none []).2).length
            + 1 :=
  C9_nil_error_captured [GoVal.vint 1] [GoVal.vstr "x"] 9 (by decide) (by decide)

/-- A pending queue position for each destination of a `Fill` call, pairing
the running index with the destination. -/
def enumFrom : Nat → List Nat → List (Nat × Nat)
  | _, [] => []
  | i, d :: r => (i, d) :: enumFrom (i + 1) r

theorem asyncFillAux_pending (ds : List Nat) :
    ∀ (f : asyncFiller) (i : Nat) (cs : List Dest), f.ready = false →
      asyncFillAux f i ds cs = .ok ({ f with toFill := f.toFill ++ enumFrom i ds }, cs) := by
  induction ds with
  | nil => intro f i cs h; simp [asyncFillAux, enumFrom]
  | cons d r ih =>
    intro f i cs h
    have step : asyncFiller.FillAt f i d cs
        = .ok ({ f with toFill := f.toFill ++ [(i, d)] }, cs) := by
      simp [asyncFiller.FillAt, h]
    simp only [asyncFillAux, step]
    rw [ih _ (i + 1) cs (by simp [h])]
    simp [enumFrom, List.append_assoc]

theorem FillAt_ready_ok (f : asyncFiller) (i d : Nat) (cs : List Dest)
    (fl : asyncFiller) (cs2 : List Dest) (hr : f.ready = true)
    (h : f.FillAt i d cs = .ok (fl, cs2)) :
    fl = f ∧ sliceFiller.FillAt f.values i d cs = .ok cs2 := by
  simp only [asyncFiller.FillAt, hr, if_true] at h
  cases h2 : sliceFiller.FillAt f.values i d cs with
  | ok cs1 =>
    rw [h2] at h
    simp only [Except.ok.injEq, Prod.mk.injEq] at h
    exact ⟨h.1.symm, by rw [h.2]⟩
  | error e =>
    rw [h2] at h
    simp at h

theorem asyncFillAux_ready_ok (ds : List Nat) :
    ∀ (f : asyncFiller) (i : Nat) (cs : List Dest) (fl : asyncFiller) (cs2 : List Dest),
      f.ready = true → asyncFillAux f i ds cs = .ok (fl, cs2) → fl = f := by
  induction ds with
  | nil =>
    intro f i cs fl cs2 hr h
    simp only [asyncFillAux, Except.ok.injEq, Prod.mk.injEq] at h
    exact h.1.symm
  | cons d r ih =>
    intro f i cs fl cs2 hr h
    simp only [asyncFillAux] at h
    cases h2 : asyncFiller.FillAt f i d cs with
    | ok pr =>
      rw [h2] at h
      obtain ⟨f1, cs1⟩ := pr
      have h3 : asyncFillAux f1 (i + 1) r cs1 = .ok (fl, cs2) := h
      obtain ⟨hf, h4⟩ := FillAt_ready_ok f i d cs f1 cs1 hr h2
      rw [hf] at h3
      exact ih f (i + 1) cs1 fl cs2 hr h3
    | error e => rw [h2] at h; simp at h

/-- C6: the value-capture slot is a single-transition state machine.  The
zero value starts pending; `FillAt` and `Fill` requests while pending are
queued in arrival order and service nothing; a successful `set` stores the
values, services exactly the queued requests and clears the queue, ending
ready; once ready, `FillAt`/`Fill` never change the slot (it can never
return to pending), and requests are serviced immediately from the stored
values. -/
theorem C6_single_transition :
    asyncFiller.init.ready = false
    ∧ (∀ (f : asyncFiller) (i d : Nat) (cs : List Dest), f.ready = false →
        f.FillAt i d cs = .ok ({ f with toFill := f.toFill ++ [(i, d)] }, cs))
    ∧ (∀ (f : asyncFiller) (ds : List Nat) (cs : List Dest), f.ready = false →
        f.Fill ds cs = .ok ({ f with toFill := f.toFill ++ enumFrom 0 ds }, cs))
    ∧ (∀ (f : asyncFiller) (v : List GoVal) (cs : List Dest) (fl : asyncFiller)
          (cs2 : List Dest), f.set v cs = .ok (fl, cs2) →
        fl.ready = true ∧ fl.values = v ∧ fl.toFill = []
          ∧ drainFills v f.toFill cs = .ok cs2)
    ∧ (∀ (f : asyncFiller) (i d : Nat) (cs : List Dest) (fl : asyncFiller)
          (cs2 : List Dest), f.ready = true → f.FillAt i d cs = .ok (fl, cs2) →
        fl = f ∧ sliceFiller.FillAt f.values i d cs = .ok cs2)
    ∧ (∀ (f : asyncFiller) (ds : List Nat) (cs : List Dest) (fl : asyncFiller)
          (cs2 : List Dest), f.ready = true → f.Fill ds cs = .ok (fl, cs2) → fl = f) := by
  refine ⟨rfl, ?_, ?_, ?_, ?_, ?_⟩
  · intro f i d cs h
    simp [asyncFiller.FillAt, h]
  · intro f ds cs h
    exact asyncFillAux_pending ds f 0 cs h
  · intro f v cs fl cs2 h
    simp only [asyncFiller.set] at h
    cases h2 : drainFills v f.toFill cs with
    | ok cs1 =>
      rw [h2] at h
      simp only [Except.ok.injEq, Prod.mk.injEq] at h
      refine ⟨?_, ?_, ?_, ?_⟩
      · rw [← h.1]
      · rw [← h.1]
      · rw [← h.1]
      · rw [h.2]
    | error e => rw [h2] at h; simp at h
  · intro f i d cs fl cs2 hr h
    exact FillAt_ready_ok f i d cs fl cs2 hr h
  · intro f ds cs fl cs2 hr h
    exact asyncFillAux_ready_ok ds f 0 cs fl cs2 hr h

/-- C6 witness: a pending zero-value slot queues a `FillAt` request. -/
theorem C6_single_transition_witness :
    asyncFiller.FillAt ⟨[], [], false⟩ 0 1 [] = .ok (⟨[], [(0, 1)], false⟩, []) :=
  C6_single_transition.2.1 ⟨[], [], false⟩ 0 1 [] rfl

theorem sliceFillAux_past (f : sliceFiller) :
    ∀ (ds : List Nat) (i : Nat) (cs : List Dest), (f : List GoVal).length ≤ i →
      sliceFillAux f i ds cs = .ok cs := by
  intro ds
  cases ds with
  | nil => intro i cs h; simp [sliceFillAux]
  | cons d r =>
    intro i cs h
    simp [sliceFillAux, Nat.not_lt.mpr h]

theorem sliceFillAux_take (f : sliceFiller) :
    ∀ (ds1 ds2 : List Nat) (i : Nat) (cs : List Dest),
      i + ds1.length = (f : List GoVal).length →
      sliceFillAux f i (ds1 ++ ds2) cs = sliceFillAux f i ds1 cs := by
  intro ds1
  induction ds1 with
  | nil =>
    intro ds2 i cs h
    simp only [List.length_nil, Nat.add_zero] at h
    rw [List.nil_append, sliceFillAux_past f ds2 i cs (by omega)]
    simp [sliceFillAux]
  | cons d r ih =>
    intro ds2 i cs h
    have hi : i < (f : List GoVal).length := by
      simp only [List.length_cons] at h
      omega
    simp only [List.cons_append, sliceFillAux, hi, if_true]
    cases h2 : sliceFiller.FillAt f i d cs with
    | ok cs1 =>
      exact ih ds2 (i + 1) cs1 (by simp only [List.length_cons] at h; omega)
    | error e => rfl

theorem asyncFillAux_overflow (ds : List Nat) :
    ∀ (f : asyncFiller) (i : Nat) (cs : List Dest), f.ready = true →
      i ≤ f.values.length → f.values.length < i + ds.length →
      exOk (asyncFillAux f i ds cs) = false := by
  induction ds with
  | nil =>
    intro f i cs hr hle hlt
    simp only [List.length_nil, Nat.add_zero] at hlt
    omega
  | cons d r ih =>
    intro f i cs hr hle hlt
    rcases Nat.lt_or_ge i f.values.length with hi | hi
    · simp only [asyncFillAux]
      cases h2 : asyncFiller.FillAt f i d cs with
      | ok pr =>
        obtain ⟨f1, cs1⟩ := pr
        obtain ⟨hf, h4⟩ := FillAt_ready_ok f i d cs f1 cs1 hr h2
        show exOk (asyncFillAux f1 (i + 1) r cs1) = false
        rw [hf]
        exact ih f (i + 1) cs1 hr (by omega)
          (by simp only [List.length_cons] at hlt; omega)
      | error e => simp [exOk]
    · have hnone : f.values[i]? = none := by
        rw [List.getElem?_eq_none]
        omega
      have hstep : asyncFiller.FillAt f i d cs = .error .indexOutOfRange := by
        simp [asyncFiller.FillAt, hr, sliceFiller.FillAt, hnone]
      simp [asyncFillAux, hstep, exOk]

/-- C7 counterexample: the `Filler` handle `AddF` returns is an
`asyncFiller`; its `Fill` with one destination against zero captured values
signals the out-of-range condition instead of tolerating the extra
destination. -/
theorem C7_counterexample :
    asyncFiller.Fill ⟨[], [], true⟩ [0] [⟨GoTy.tint, none⟩] = .error .indexOutOfRange
      ∧ exOk (asyncFiller.Fill ⟨[], [], true⟩ [0] [⟨GoTy.tint, none⟩]) = false :=
  ⟨rfl, rfl⟩

/-- C7 (amended): `sliceFiller.Fill` is positional and copies only as many
values as are available, tolerating extra destinations; but the
`asyncFiller` handle's `Fill` forwards every destination index to `FillAt`,
so once ready, extra destinations beyond the captured count always signal a
programming-error condition; `FillAt` fails exactly when the index is out of
range of the captured values or the destination cannot hold the value's
type, and otherwise stores the value. -/
theorem C7_fill_positional :
    (∀ (vals : List GoVal) (ds1 ds2 : List Nat) (cs : List Dest),
        ds1.length = vals.length →
        sliceFiller.Fill vals (ds1 ++ ds2) cs = sliceFiller.Fill vals ds1 cs)
    ∧ (∀ (f : asyncFiller) (ds : List Nat) (cs : List Dest),
        f.ready = true → f.values.length < ds.length →
        exOk (f.Fill ds cs) = false)
    ∧ (∀ (vals : List GoVal) (i d : Nat) (cs : List Dest) (dst : Dest),
        cs[d]? = some dst →
          (vals[i]? = none → sliceFiller.FillAt vals i d cs = .error .indexOutOfRange)
          ∧ (∀ v, vals[i]? = some v → assignable dst.ty v = false →
              sliceFiller.FillAt vals i d cs = .error .cannotSet)
          ∧ (∀ v, vals[i]? = some v → assignable dst.ty v = true →
              sliceFiller.FillAt vals i d cs = .ok (cs.set d ⟨dst.ty, some v⟩))) := by
  refine ⟨?_, ?_, ?_⟩
  · intro vals ds1 ds2 cs h
    exact sliceFillAux_take vals ds1 ds2 0 cs (by omega)
  · intro f ds cs hr hlt
    exact asyncFillAux_overflow ds f 0 cs hr (by omega) (by omega)
  · intro vals i d cs dst hd
    refine ⟨?_, ?_, ?_⟩
    · intro hv; simp [sliceFiller.FillAt, hv]
    · intro v hv ha; simp [sliceFiller.FillAt, hv, hd, ha]
    · intro v hv ha; simp [sliceFiller.FillAt, hv, hd, ha]

/-- C7 witness: one captured value, two destinations — the slice filler
copies the one value and tolerates the extra destination. -/
theorem C7_fill_positional_witness :
    sliceFiller.Fill [GoVal.vint 1] ([0] ++ [1]) [⟨GoTy.tint, none⟩, ⟨GoTy.tint, none⟩]
      = sliceFiller.Fill [GoVal.vint 1] [0] [⟨GoTy.tint, none⟩, ⟨GoTy.tint, none⟩] :=
  C7_fill_positional.1 [GoVal.vint 1] [0] [1] [⟨GoTy.tint, none⟩, ⟨GoTy.tint, none⟩] rfl

/-- C8 counterexample: registering a zero-parameter function with one
supplied argument is an arity mismatch, yet registration succeeds (the extra
argument is silently ignored), and executing the group afterwards calls the
function and completes without any panic. -/
theorem C8_counterexample :
    regOk (Group.AddF {} 0 (some ⟨0, 7, fun _ => []⟩) [GoVal.vint 5]) = true
      ∧ (0 : Nat) ≠ [GoVal.vint 5].length
      ∧ (Group.Add ({} : Group AState GoVal) (addFThunk 0 ⟨0, 7, fun _ => []⟩ [])).Exec
          ⟨[asyncFiller.init], [], [], none⟩
        = (⟨[⟨[], [], true⟩], [], [(7, [])], none⟩, none) :=
  ⟨rfl, by decide, rfl⟩

/-- C8 (amended): a non-callable value, or fewer supplied arguments than the
function's parameter count, is signaled immediately at registration time;
supplying MORE arguments than the parameter count is not signaled — the
extras are silently ignored and registration succeeds; a successful
registration appends exactly one thunk to the step list and executes
nothing. -/
theorem C8_registration_checks :
    (∀ (g : Group AState GoVal) (slot : Nat) (args : List GoVal),
        Group.AddF g slot none args = .error .nonFunc)
    ∧ (∀ (g : Group AState GoVal) (slot : Nat) (fn : GoFunc) (args : List GoVal),
        args.length < fn.numIn →
        Group.AddF g slot (some fn) args = .error .argOutOfRange)
    ∧ (∀ (g : Group AState GoVal) (slot : Nat) (fn : GoFunc) (args : List GoVal),
        fn.numIn ≤ args.length →
        Group.AddF g slot (some fn) args
            = .ok (g.Add (addFThunk slot fn (args.take fn.numIn)))
          ∧ (g.Add (addFThunk slot fn (args.take fn.numIn))).funcs
              = g.funcs ++ [⟨addFThunk slot fn (args.take fn.numIn), false⟩]
          ∧ (g.Add (addFThunk slot fn (args.take fn.numIn))).final = g.final) := by
  refine ⟨fun g slot args => rfl, ?_, ?_⟩
  · intro g slot fn args h
    simp [Group.AddF, Nat.not_le.mpr h]
  · intro g slot fn args h
    exact ⟨by simp [Group.AddF, h], rfl, rfl⟩

/-- C8 witness: a two-parameter function registered with no arguments panics
at registration time, and a one-parameter function registered with one
argument registers one unexecuted thunk. -/
theorem C8_registration_checks_witness :
    Group.AddF {} 0 (some ⟨2, 1, fun _ => []⟩) [] = .error .argOutOfRange
      ∧ Group.AddF ({} : Group AState GoVal) 0 (some ⟨1, 1, fun _ => []⟩) [GoVal.vint 3]
          = .ok (Group.Add {} (addFThunk 0 ⟨1, 1, fun _ => []⟩ ([GoVal.vint 3].take 1))) :=
  ⟨C8_registration_checks.2.1 {} 0 ⟨2, 1, fun _ => []⟩ [] (by decide),
    (C8_registration_checks.2.2 {} 0 ⟨1, 1, fun _ => []⟩ [GoVal.vint 3] (by decide)).1⟩

/-- C5: for every function registered through `AddF` (modelled in slot 0 of
a fresh state), executing the group calls the function exactly once, feeds
the captured outputs to the filler slot — which becomes ready — regardless
of whether an error was also produced, returns the partitioned error as the
`Exec` outcome, and leaves every captured output retrievable through the
handle afterwards. -/
theorem C5_error_and_capture :
    ∀ (fn : GoFunc) (args : List GoVal) (cs0 : List Dest),
      fn.numIn ≤ args.length →
      (Group.AddF {} 0 (some fn) args
          = .ok (Group.Add {} (addFThunk 0 fn (args.take fn.numIn))))
      ∧ ((Group.Add ({} : Group AState GoVal) (addFThunk 0 fn (args.take fn.numIn))).Exec
            ⟨[asyncFiller.init], cs0, [], none⟩
          = (⟨[⟨(partitionLoop (fn.run (args.take fn.numIn)) none []).2, [], true⟩], cs0,
              [(fn.gid, args.take fn.numIn)], none⟩,
            (partitionLoop (fn.run (args.take fn.numIn)) none []).1))
      ∧ (∀ (i : Nat) (v : GoVal) (dst : Dest),
          ((partitionLoop (fn.run (args.take fn.numIn)) none []).2)[i]? = some v →
          assignable dst.ty v = true →
          asyncFiller.FillAt
              ⟨(partitionLoop (fn.run (args.take fn.numIn)) none []).2, [], true⟩ i 0 [dst]
            = .ok (⟨(partitionLoop (fn.run (args.take fn.numIn)) none []).2, [], true⟩,
                [⟨dst.ty, some v⟩])) := by
  intro fn args cs0 h
  refine ⟨by simp [Group.AddF, h], ?_, ?_⟩
  · cases hpr : (partitionLoop (fn.run (args.take fn.numIn)) none []).1 with
    | none =>
      simp [Group.Exec, Group.Add, execWalk, addFThunk, asyncFiller.set, asyncFiller.init,
        drainFills, runDefers, runFinals, hpr]
    | some e =>
      simp [Group.Exec, Group.Add, execWalk, addFThunk, asyncFiller.set, asyncFiller.init,
        drainFills, runDefers, runFinals, hpr]
  · intro i v dst hv ha
    simp [asyncFiller.FillAt, sliceFiller.FillAt, hv, ha]

/-- C5 witness: a one-parameter function returning an int and a non-nil
error; the int stays retrievable while the error is returned by `Exec`. -/
theorem C5_error_and_capture_witness :
    ((Group.Add ({} : Group AState GoVal)
          (addFThunk 0 ⟨1, 4, fun _ => [GoVal.vint 7, GoVal.verr 3]⟩
            ([GoVal.vint 1, GoVal.vint 2].take 1))).Exec
        ⟨[asyncFiller.init], [], [], none⟩
      = (⟨[⟨(partitionLoop ((fun _ => [GoVal.vint 7, GoVal.verr 3])
              ([GoVal.vint 1, GoVal.vint 2].take 1)) none []).2, [], true⟩], [],
          [(4, [GoVal.vint 1, GoVal.vint 2].take 1)], none⟩,
        (partitionLoop ((fun _ => [GoVal.vint 7, GoVal.verr 3])
            ([GoVal.vint 1, GoVal.vint 2].take 1)) none []).1))
      ∧ asyncFiller.FillAt
          ⟨(partitionLoop ((fun _ => [GoVal.vint 7, GoVal.verr 3])
              ([GoVal.vint 1, GoVal.vint 2].take 1)) none []).2, [], true⟩ 0 0
          [⟨GoTy.tint, none⟩]
        = .ok (⟨(partitionLoop ((fun _ => [GoVal.vint 7, GoVal.verr 3])
              ([GoVal.vint 1, GoVal.vint 2].take 1)) none []).2, [], true⟩,
            [⟨GoTy.tint, some (GoVal.vint 7)⟩]) :=
  ⟨(C5_error_and_capture ⟨1, 4, fun _ => [GoVal.vint 7, GoVal.verr 3]⟩
      [GoVal.vint 1, GoVal.vint 2] [] (by decide)).2.1,
    (C5_error_and_capture ⟨1, 4, fun _ => [GoVal.vint 7, GoVal.verr 3]⟩
        [GoVal.vint 1, GoVal.vint 2] [] (by decide)).2.2 0 (GoVal.vint 7)
      ⟨GoTy.tint, none⟩ (by decide) (by decide)⟩

end errs
